import Mathlib

/-!
Verification development for the WXF binary codec (single header
`wxf_parser.h`).  Bytes are modelled as natural numbers below 256,
buffers as `List Nat`, and the C++ machine integers (`uint64_t`,
`size_t`, `int`) as `Nat`/`Int` with explicit `% 2^64` (resp. 32-bit
wrap-around) at each operation where the C++ arithmetic can overflow.
Each definition carries a reference to the source construct it embeds.
-/

namespace WXF

/-- 2^64, the modulus of `uint64_t`/`size_t` arithmetic. -/
def two64 : Nat := 18446744073709551616

/-- Source `size_of_head_num_type` (wxf_parser.h:82-97): byte width of a
numeric scalar tag (i8=67, i16=106, i32=105, i64=76, f64=114), 0 otherwise. -/
def size_of_head_num_type (ty : Nat) : Nat :=
  if ty = 67 then 1
  else if ty = 106 then 2
  else if ty = 105 then 4
  else if ty = 76 then 8
  else if ty = 114 then 8
  else 0

/-- Two's-complement reading of the low 32 bits, modelling the C++
conversion `(int)x` of a `uint64_t` value (wxf_parser.h:683). -/
def toInt32 (n : Nat) : Int :=
  if n % 4294967296 < 2147483648 then ((n % 4294967296 : Nat) : Int)
  else ((n % 4294967296 : Nat) : Int) - 4294967296

/-- Conversion `(size_t)i` of an `int` value: two's-complement mod 2^64
(sign extension for negative values). -/
def toSizeT (i : Int) : Nat := (i.emod 18446744073709551616).toNat

/-- Source `size_of_arr_num_type` (wxf_parser.h:109-111):
`size_t(1) << (num_type & 0b111)`.  For a two's-complement `int` the low
three bits are `num_type.emod 8`. -/
def size_of_arr_num_type (num_type : Int) : Nat :=
  2 ^ ((num_type.emod 8).toNat)

/-- Source `minimal_signed_bits` (wxf_parser.h:113-120) instantiated at
`T = int64_t`: 0/1/2/3 for the narrowest of int8/int16/int32/int64. -/
def minimal_signed_bits (x : Int) : Nat :=
  if -128 ≤ x ∧ x ≤ 127 then 0
  else if -32768 ≤ x ∧ x ≤ 32767 then 1
  else if -2147483648 ≤ x ∧ x ≤ 2147483647 then 2
  else 3

/-- Little-endian byte list of the low `w` bytes of a natural number. -/
def natLEBytes : Nat → Nat → List Nat
  | 0, _ => []
  | w + 1, n => n % 256 :: natLEBytes w (n / 256)

/-- Source `serialize_binary` (wxf_parser.h:155-160) for a `w`-byte signed
integer: `memcpy` of the two's-complement little-endian representation. -/
def intLEBytes (w : Nat) (v : Int) : List Nat :=
  natLEBytes w (v.emod ((2 : Int) ^ (8 * w))).toNat

/-- The byte group loop of source `serialize_varint` (wxf_parser.h:141-153).
The C++ do-while writes at most 10 bytes into `temp[10]`; for `uint64_t`
inputs the loop runs at most 10 times, which the explicit step bound
mirrors (the first argument is the remaining step budget, 10 at entry). -/
def varintBytes : Nat → Nat → List Nat
  | 0, _ => []
  | fuel + 1, v =>
    if v < 128 then [v] else (v % 128 + 128) :: varintBytes fuel (v / 128)

/-- Source `serialize_varint` (wxf_parser.h:141-153): appends the 7-bit
little-endian groups of `val` to `buffer`. -/
def serialize_varint (buffer : List Nat) (val : Nat) : List Nat :=
  buffer ++ varintBytes 10 val

/-- Source `Encoder::push_integer` (wxf_parser.h:196-219): tag byte of the
narrowest signed width per `minimal_signed_bits`, then the fixed-width
little-endian value.  The `default` switch arm appends nothing. -/
def push_integer (buffer : List Nat) (val : Int) : List Nat :=
  match minimal_signed_bits val with
  | 0 => buffer ++ 67 :: intLEBytes 1 val
  | 1 => buffer ++ 106 :: intLEBytes 2 val
  | 2 => buffer ++ 105 :: intLEBytes 4 val
  | 3 => buffer ++ 76 :: intLEBytes 8 val
  | _ => buffer

/-- Source `Encoder::push_array_info` (wxf_parser.h:255-266): appends
`[array_type, num_type, rank(varint), dims...(varint)]` and returns the
running `size_t` product `all_len` of the dimensions (wrapping mod 2^64). -/
def push_array_info (buffer : List Nat) (dims : List Nat) (ty numType : Nat) :
    List Nat × Nat :=
  dims.foldl
    (fun p d => (serialize_varint p.1 d, p.2 * d % two64))
    (serialize_varint (buffer ++ [ty, numType]) dims.length, 1)

/-- Source `Encoder::push_array` (wxf_parser.h:268-285).  `data` is the
element list, one byte list per element.  On a count mismatch the buffer
is resized back to its old size (`buffer.resize(old_size)`) and the
diagnostic path is taken; the Bool records whether the push succeeded
(false exactly when the `cerr` diagnostic is printed). -/
def push_array (buffer : List Nat) (dims : List Nat) (data : List (List Nat))
    (ty numType : Nat) : List Nat × Bool :=
  let oldSize := buffer.length
  let r := push_array_info buffer dims ty numType
  if r.2 ≠ data.length then (r.1.take oldSize, false)
  else (r.1 ++ data.flatten, true)

/-- One unrolled step chain of source `Parser::read_varint`
(wxf_parser.h:610-631).  Arguments: remaining steps (10 at entry, the
unrolled body has 10 reads), byte position, current shift, accumulator.
Each step computes `result |= uint64_t(b & 0x7F) << shift` in `uint64_t`
arithmetic and stops when the continuation bit is clear or the buffer
end is reached; the 10th read stops unconditionally.  Returns the value
and the new position. -/
def rdAux (buf : List Nat) : Nat → Nat → Nat → Nat → Nat × Nat
  | 0, pos, _, acc => (acc, pos)
  | fuel + 1, pos, shift, acc =>
    let b := buf.getD pos 0
    let acc2 := acc ||| (b % 128) * 2 ^ shift % two64
    if fuel = 0 then (acc2, pos + 1)
    else if b < 128 ∨ buf.length ≤ pos + 1 then (acc2, pos + 1)
    else rdAux buf fuel (pos + 1) (shift + 7) acc2

/-- Source `Parser::read_varint` (wxf_parser.h:610-631): returns 0 and
leaves the position unchanged when the position is at or past the buffer
end, otherwise runs the 10-step read chain. -/
def read_varint (buf : List Nat) (pos : Nat) : Nat × Nat :=
  if buf.length ≤ pos then (0, pos) else rdAux buf 10 pos 0 0

/-- Decode-time token, source `struct Token` (wxf_parser.h:350-373).  The
constructor `Token(type, len, data)` is `scalar` (the `length` union
member holds a byte count or a declared child count, `off` is the data
pointer as an offset into the buffer); the array constructor
`Token(type, dims, num_type, len, data)` is `arr` (`numType` is the
`size_t` value stored in `dimensions[0]`, `allLen` the flattened length
stored in `dimensions[1]`). -/
inductive PTok where
  | scalar (ty : Nat) (length : Nat) (off : Nat)
  | arr (ty : Nat) (numType : Nat) (dims : List Nat) (allLen : Nat) (off : Nat)
deriving DecidableEq

/-- The `type` field of a token. -/
def ptokType : PTok → Nat
  | .scalar ty _ _ => ty
  | .arr ty _ _ _ _ => ty

/-- The `data` pointer of a token, as an offset into the buffer. -/
def ptokOff : PTok → Nat
  | .scalar _ _ off => off
  | .arr _ _ _ _ off => off

/-- The `length` union member of a token.  For an array token the union
holds the `dimensions` pointer instead, so reading `length` there yields
an unspecified machine value; the tree builder only reads `length` on
func/association tokens, which the parser always builds with the scalar
constructor, so the 0 placeholder is never observable there. -/
def ptokLength : PTok → Nat
  | .scalar _ len _ => len
  | .arr _ _ _ _ _ => 0

/-- The dimension-reading loop of the array case of `Parser::parse`
(wxf_parser.h:685-690): reads `r` varints, accumulating the `size_t`
product `all_len` (wrapping mod 2^64).  Returns (dims, all_len, pos). -/
def readDims (buf : List Nat) : Nat → Nat → Nat → List Nat × Nat × Nat
  | 0, pos, acc => ([], acc, pos)
  | r + 1, pos, acc =>
    let p := read_varint buf pos
    let rest := readDims buf r p.2 (acc * p.1 % two64)
    (p.1 :: rest.1, rest.2.1, rest.2.2)

/-- The token-scanning while-loop of `Parser::parse` (wxf_parser.h:644-700).
First argument is a step budget: every iteration consumes at least one
byte unless a `size_t` position wrap-around sends the cursor backwards,
in which case the C++ loop can run without bound; `none` models that
divergence.  Threads (position, err, tokens). -/
def parseLoop (buf : List Nat) : Nat → Nat → Nat → List PTok →
    Option (Nat × List PTok)
  | 0, _, _, _ => none
  | fuel + 1, pos, err, toks =>
    if pos < buf.length then
      let ty := buf.getD pos 0
      let pos2 := pos + 1
      if pos2 = buf.length then some (err, toks)
      else if ty = 67 ∨ ty = 106 ∨ ty = 105 ∨ ty = 76 ∨ ty = 114 then
        let len := size_of_head_num_type ty
        parseLoop buf fuel ((pos2 + len) % two64) err
          (toks ++ [.scalar ty len pos2])
      else if ty = 115 ∨ ty = 73 ∨ ty = 82 ∨ ty = 83 ∨ ty = 66 then
        let p := read_varint buf pos2
        parseLoop buf fuel ((p.2 + p.1) % two64) err
          (toks ++ [.scalar ty p.1 p.2])
      else if ty = 102 ∨ ty = 65 then
        let p := read_varint buf pos2
        parseLoop buf fuel p.2 err (toks ++ [.scalar ty p.1 p.2])
      else if ty = 58 ∨ ty = 45 then
        parseLoop buf fuel pos2 err (toks ++ [.scalar ty 2 pos2])
      else if ty = 193 ∨ ty = 194 then
        let pn := read_varint buf pos2
        let ntInt := toInt32 pn.1
        let pr := read_varint buf pn.2
        let d := readDims buf pr.1 pr.2 1
        parseLoop buf fuel
          ((d.2.2 + d.2.1 * size_of_arr_num_type ntInt) % two64) err
          (toks ++ [.arr ty (toSizeT ntInt) d.1 d.2.1 d.2.2])
      else
        parseLoop buf fuel pos2 2 toks
    else some (err, toks)

/-- Final state of a freshly constructed parser after `Parser::parse`:
the `err` field and the `tokens` vector. -/
structure ParseOut where
  err : Nat
  tokens : List PTok
deriving DecidableEq

/-- Source `Parser::parse` (wxf_parser.h:633-702) on a fresh parser
(`pos == 0`, `err == 0`).  The header check rejects with `err = 1`
before the loop; otherwise the loop runs and the trailing `err = 0;`
(wxf_parser.h:701) unconditionally overwrites any error the loop set. -/
def parse (buf : List Nat) : Option ParseOut :=
  if buf.length < 2 ∨ buf.getD 0 0 ≠ 56 ∨ buf.getD 1 0 ≠ 58 then some ⟨1, []⟩
  else
    match parseLoop buf (buf.length + 1) 2 0 [] with
    | none => none
    | some r => some ⟨0, r.2⟩

/-- Little-endian value of a byte list (each byte taken mod 256). -/
def leNat : List Nat → Nat
  | [] => 0
  | b :: bs => b % 256 + 256 * leNat bs

/-- Two's-complement reinterpretation of a `w`-byte unsigned value. -/
def toSigned (w : Nat) (n : Nat) : Int :=
  if n % 2 ^ (8 * w) < 2 ^ (8 * w - 1) then ((n % 2 ^ (8 * w) : Nat) : Int)
  else ((n % 2 ^ (8 * w) : Nat) : Int) - 2 ^ (8 * w)

/-- Source `Token::get_integer` (wxf_parser.h:430-441): loads the pointed
fixed-width signed integer for the four integer tags, 0 otherwise. -/
def get_integer (buf : List Nat) (t : PTok) : Int :=
  if ptokType t = 67 then toSigned 1 (leNat ((buf.drop (ptokOff t)).take 1))
  else if ptokType t = 106 then toSigned 2 (leNat ((buf.drop (ptokOff t)).take 2))
  else if ptokType t = 105 then toSigned 4 (leNat ((buf.drop (ptokOff t)).take 4))
  else if ptokType t = 76 then toSigned 8 (leNat ((buf.drop (ptokOff t)).take 8))
  else 0

/-- Source `Token::get_real` (wxf_parser.h:443-448), with `double` values
modelled by their 64-bit patterns (the bit pattern of the literal `0`
returned on the non-f64 branch is 0). -/
def get_real (buf : List Nat) (t : PTok) : Nat :=
  if ptokType t = 114 then leNat ((buf.drop (ptokOff t)).take 8) else 0

/-- Source `Token::get_string_view` (wxf_parser.h:450-460): the viewed
bytes `(data, length)` for the five textual tags, the empty view
otherwise. -/
def get_string_view (buf : List Nat) (t : PTok) : List Nat :=
  if ptokType t = 115 ∨ ptokType t = 73 ∨ ptokType t = 82 ∨ ptokType t = 83
      ∨ ptokType t = 66 then
    (buf.drop (ptokOff t)).take (ptokLength t)
  else []

/-- Source `struct ExprNode` (wxf_parser.h:705-763): token index, declared
child count (`size`), type byte, and the owned children array.  The
children list holds the fully constructed children in slot order. -/
inductive Node where
  | mk (idx : Nat) (size : Nat) (ty : Nat) (children : List Node)

/-- The declared child count of a node. -/
def Node.nsize : Node → Nat
  | .mk _ s _ _ => s

/-- The children of a node. -/
def Node.nchildren : Node → List Node
  | .mk _ _ _ ch => ch

/-- A default-constructed (or cleared) `ExprNode`: index 0, size 0,
type `i8` (67), no children (wxf_parser.h:711, 750-757). -/
def defaultNode : Node := Node.mk 0 0 67 []

/-- An open frame of `MakeExprTree`'s explicit stack: the paired entries
of `expr_stack` (the node under construction: its index, declared size
and type) and `node_stack` (the next child slot, which equals the number
of completed children, held here as `done`).  A child that is itself
under construction is the frame above, not yet in `done`. -/
structure Frame where
  idx : Nat
  size : Nat
  ty : Nat
  done : List Node

/-- Source `move_to_next_node` (wxf_parser.h:831-841) fused with the slot
write that precedes it: places a completed node in the top frame's next
slot, then pops every frame whose slot count reached its declared size,
propagating the completed node into the parent slot.  `inl` means the
stack emptied (the bottom node is fully built). -/
def closeUp : Node → List Frame → Node ⊕ List Frame
  | node, [] => Sum.inl node
  | node, f :: fs =>
    let d2 := f.done ++ [node]
    if f.size ≤ d2.length then closeUp (Node.mk f.idx f.size f.ty d2) fs
    else Sum.inr (Frame.mk f.idx f.size f.ty d2 :: fs)

/-- Source `MAX_ALLOC` (wxf_parser.h:714): the `ExprNode` constructor's
allocation bound, `std::numeric_limits<int64_t>::max()` = 2^63 - 1; a
declared size above it makes the constructor throw `std::bad_alloc`. -/
def MAX_ALLOC : Nat := 9223372036854775807

/-- Tree-builder failure outcomes.  The three `oob*` cases are
out-of-bounds accesses the C++ performs without checking (undefined
behavior made explicit); `badAlloc` is the `std::bad_alloc` the
`ExprNode` constructor throws for a declared size above `MAX_ALLOC`
(wxf_parser.h:714-717), which propagates out of `MakeExprTree` uncaught:
`oobToken` = `tokens[0]` on an empty token list (wxf_parser.h:845);
`oobSlot` = `parent->children[node_pos]` with `node_pos >= parent->size`
(wxf_parser.h:872, 886, 895), including the nullptr children array of a
zero-arity composite;
`oobStack` = `node_stack.back()` on an empty stack (tokens remaining
after the root completed). -/
inductive BErr where
  | oobToken
  | oobSlot
  | oobStack
  | badAlloc
deriving DecidableEq

/-- Result of `MakeExprTree`: the returned tree's root, and whether the
"Error: not all nodes are parsed" diagnostic path ran (wxf_parser.h:902-907;
that path clears every node still on the stack — including the root, the
stack's bottom entry — and still returns the tree). -/
structure TreeOut where
  root : Node
  diag : Bool

/-- The token loop of `MakeExprTree` (wxf_parser.h:866-907).  Arguments:
remaining tokens, frame stack (top first; the bottom frame is the root),
current token index `pos`.  The func case consumes the following head
token as well (`pos++` skip); its tokens-exhausted sub-case is the loop
simply ending with a non-empty stack, written out because `pos` skips
past the end.  Each branch writes the new `ExprNode` through
`parent->children[node_pos]` (the slot-bound check comes first, since
binding that reference is already out of bounds) and then runs the
constructor, whose `size > MAX_ALLOC` guard can throw — also on the
constant sizes 2 and 0 of the rule and leaf branches, where it is
trivially false. -/
def runB : List PTok → List Frame → Nat → Except BErr TreeOut
  | [], [], _ => .ok ⟨defaultNode, false⟩
  | [], _ :: _, _ => .ok ⟨defaultNode, true⟩
  | _ :: _, [], _ => .error .oobStack
  | t :: ts, f :: fs, pos =>
    if ptokType t = 102 then
      if f.size ≤ f.done.length then .error .oobSlot
      else if MAX_ALLOC < ptokLength t then .error .badAlloc
      else
        match ts with
        | [] => .ok ⟨defaultNode, true⟩
        | _ :: ts2 =>
          runB ts2 (Frame.mk (pos + 1) (ptokLength t) 102 [] :: f :: fs)
            (pos + 2)
    else if ptokType t = 65 then
      if f.size ≤ f.done.length then .error .oobSlot
      else if MAX_ALLOC < ptokLength t then .error .badAlloc
      else runB ts (Frame.mk pos (ptokLength t) 65 [] :: f :: fs) (pos + 1)
    else if ptokType t = 58 ∨ ptokType t = 45 then
      if f.size ≤ f.done.length then .error .oobSlot
      else if MAX_ALLOC < 2 then .error .badAlloc
      else runB ts (Frame.mk pos 2 (ptokType t) [] :: f :: fs) (pos + 1)
    else
      if f.size ≤ f.done.length then .error .oobSlot
      else if MAX_ALLOC < 0 then .error .badAlloc
      else
        match closeUp (Node.mk pos 0 (ptokType t) []) (f :: fs) with
        | .inl root => if ts.isEmpty then .ok ⟨root, false⟩ else .error .oobStack
        | .inr st2 => runB ts st2 (pos + 1)

/-- Source `MakeExprTree(Parser&)` (wxf_parser.h:818-910) on a parser's
final state (`err`, token list).  A nonzero `err` returns the default
tree; an empty token list hits the unchecked `tokens[0]` read; a func or
association first token seeds the root frame through the `ExprNode`
constructor — whose `size > MAX_ALLOC` guard throws `std::bad_alloc`
first for an oversized declared arity — and func skips its head symbol,
so the loop starts at index 2; any other first token builds a
single leaf root (constructor size 0, guard trivially false) and
returns immediately, ignoring any remaining tokens. -/
def MakeExprTree (err : Nat) (tokens : List PTok) : Except BErr TreeOut :=
  if err ≠ 0 then .ok ⟨defaultNode, false⟩
  else
    match tokens with
    | [] => .error .oobToken
    | t :: rest =>
      if ptokType t = 102 then
        if MAX_ALLOC < ptokLength t then .error .badAlloc
        else runB (rest.drop 1) [Frame.mk 1 (ptokLength t) 102 []] 2
      else if ptokType t = 65 then
        if MAX_ALLOC < ptokLength t then .error .badAlloc
        else runB rest [Frame.mk 1 (ptokLength t) 65 []] 1
      else
        if MAX_ALLOC < 0 then .error .badAlloc
        else .ok ⟨Node.mk 0 0 (ptokType t) [], false⟩

/-- Abstract well-formed wire expressions, used to quantify over "n
well-formed sub-expressions of any shape/depth": a leaf token (scalar,
textual or array tag), a function with argument list, an association
with entry list, or a (delayed) rule with two children. -/
inductive Expr where
  | leaf (ty : Nat)
  | fn (args : List Expr)
  | assoc (args : List Expr)
  | rul (d : Bool) (a b : Expr)

mutual

/-- The token sequence a well-formed expression occupies in the parser's
token list: composite tokens carry their declared arity in `length`, a
function is followed by its head-symbol token (tag 115), and children
follow depth-first — the layout of §6 of the format description. -/
def toksE : Expr → List PTok
  | .leaf ty => [.scalar ty 0 0]
  | .fn args => .scalar 102 args.length 0 :: .scalar 115 1 0 :: toksL args
  | .assoc args => .scalar 65 args.length 0 :: toksL args
  | .rul d a b => .scalar (if d then 58 else 45) 2 0 :: (toksE a ++ toksE b)

/-- Concatenated token sequences of an expression list. -/
def toksL : List Expr → List PTok
  | [] => []
  | e :: es => toksE e ++ toksL es

end

mutual

/-- A leaf's tag must not collide with the four composite tags (the tree
builder dispatches on the tag); every composite in the expression must
declare at least one child (the builder writes each child through
`parent->children[slot]`, and a zero-arity composite owns no children
array, so its first sibling write is out of bounds) and at most
`MAX_ALLOC` children (the `ExprNode` constructor throws `std::bad_alloc`
above that bound). -/
def goodE : Expr → Bool
  | .leaf ty => !(ty = 102 ∨ ty = 65 ∨ ty = 58 ∨ ty = 45 : Bool)
  | .fn args => !args.isEmpty && (decide (args.length ≤ MAX_ALLOC) && goodL args)
  | .assoc args =>
    !args.isEmpty && (decide (args.length ≤ MAX_ALLOC) && goodL args)
  | .rul _ a b => goodE a && goodE b

/-- `goodE` on every member of a list. -/
def goodL : List Expr → Bool
  | [] => true
  | e :: es => goodE e && goodL es

end

mutual

/-- The node the tree builder constructs for a well-formed expression
whose first token sits at index `pos` of the token list, mirroring the
index bookkeeping of `MakeExprTree`'s loop (a function node's index
points at its head-symbol token). -/
def nodeOf : Nat → Expr → Node
  | pos, .leaf ty => .mk pos 0 ty []
  | pos, .fn args => .mk (pos + 1) args.length 102 (nodesOf (pos + 2) args)
  | pos, .assoc args => .mk pos args.length 65 (nodesOf (pos + 1) args)
  | pos, .rul d a b =>
    .mk pos 2 (if d then 58 else 45)
      [nodeOf (pos + 1) a, nodeOf (pos + 1 + (toksE a).length) b]

/-- Nodes of a sibling list laid out consecutively from index `pos`. -/
def nodesOf : Nat → List Expr → List Node
  | _, [] => []
  | pos, e :: es => nodeOf pos e :: nodesOf (pos + (toksE e).length) es

end

mutual

/-- A node is fully populated when its children list has exactly its
declared size and all children are recursively fully populated. -/
def populatedN : Node → Bool
  | .mk _ size _ ch => (ch.length = size : Bool) && populatedL ch

/-- `populatedN` on every member of a list. -/
def populatedL : List Node → Bool
  | [] => true
  | n :: ns => populatedN n && populatedL ns

end

/-! ### Helper definitions for the claim statements and proofs -/

/-- Shape of a varint encoding: at least one byte, every byte below 256,
the continuation (high) bit set on every byte except the last. -/
def varintShape : List Nat → Bool
  | [] => false
  | [b] => decide (b < 128)
  | b :: bs => decide (128 ≤ b ∧ b < 256) && varintShape bs

/-- The value of a byte list read as little-endian 7-bit groups. -/
def groupsVal : List Nat → Nat
  | [] => 0
  | b :: bs => b % 128 + 128 * groupsVal bs

/-- Continuation of the tree-builder loop after a completed node has been
propagated into the stack: the stack either emptied (`inl`, the root is
done — the loop then either ends cleanly or, with tokens remaining,
reads the back of the empty slot stack) or it did not (`inr`) and the
loop continues from token position `pos2`. -/
def contAfter (ts : List PTok) (pos2 : Nat) : Node ⊕ List Frame →
    Except BErr TreeOut
  | .inl root => if ts.isEmpty then .ok ⟨root, false⟩ else .error .oobStack
  | .inr st2 => runB ts st2 pos2

/-- `v` fits exactly in a `w`-bit signed integer. -/
def fitsWidth (w : Nat) (v : Int) : Prop := -(2 ^ (w - 1)) ≤ v ∧ v < 2 ^ (w - 1)

instance (w : Nat) (v : Int) : Decidable (fitsWidth w v) := by
  unfold fitsWidth; infer_instance

/-- The wire tag of each signed integer width. -/
def tag_of_width (w : Nat) : Nat :=
  if w = 8 then 67 else if w = 16 then 106 else if w = 32 then 105 else 76

/-- The `size_t` product accumulator of `push_array_info`. -/
def wrappedProd (dims : List Nat) : Nat :=
  dims.foldl (fun a d => a * d % two64) 1

theorem push_array_info_foldl_fst (dims : List Nat) :
    ∀ (init : List Nat) (a : Nat),
      (dims.foldl (fun p d => (serialize_varint p.1 d, p.2 * d % two64))
          (init, a)).1
        = init ++ (dims.map (varintBytes 10)).flatten := by
  induction dims with
  | nil => intro init a; simp
  | cons d ds ih =>
    intro init a
    simp only [List.foldl_cons, List.map_cons, List.flatten_cons]
    rw [ih]
    simp [serialize_varint, List.append_assoc]

theorem push_array_info_foldl_snd (dims : List Nat) :
    ∀ (init : List Nat) (a : Nat),
      (dims.foldl (fun p d => (serialize_varint p.1 d, p.2 * d % two64))
          (init, a)).2
        = dims.foldl (fun a d => a * d % two64) a := by
  induction dims with
  | nil => intro init a; rfl
  | cons d ds ih => intro init a; simp only [List.foldl_cons]; rw [ih]

theorem push_array_info_fst (buffer dims : List Nat) (ty nt : Nat) :
    (push_array_info buffer dims ty nt).1
      = buffer ++ ([ty, nt] ++ varintBytes 10 dims.length
          ++ (dims.map (varintBytes 10)).flatten) := by
  unfold push_array_info
  rw [push_array_info_foldl_fst]
  simp [serialize_varint, List.append_assoc]

theorem push_array_info_snd (buffer dims : List Nat) (ty nt : Nat) :
    (push_array_info buffer dims ty nt).2 = wrappedProd dims := by
  unfold push_array_info wrappedProd
  rw [push_array_info_foldl_snd]

theorem lor_mul_two_pow (s : Nat) :
    ∀ a m : Nat, a < 2 ^ s → a ||| m * 2 ^ s = a + m * 2 ^ s := by
  induction s with
  | zero =>
    intro a m h
    interval_cases a
    simp
  | succ s ih =>
    intro a m h
    have hp : (2 : Nat) ^ (s + 1) = 2 * 2 ^ s := by ring
    have hb2 : m * 2 ^ (s + 1) = 2 * (m * 2 ^ s) := by ring
    have hdiv : (a ||| m * 2 ^ (s + 1)) / 2 = a / 2 + m * 2 ^ s := by
      rw [Nat.or_div_two, hb2]
      have h2 : 2 * (m * 2 ^ s) / 2 = m * 2 ^ s := by omega
      rw [h2]
      exact ih (a / 2) m (by omega)
    have hmod : (a ||| m * 2 ^ (s + 1)) % 2 = a % 2 := by
      rcases Nat.mod_two_eq_zero_or_one a with ha | ha
      · rcases Nat.mod_two_eq_zero_or_one (a ||| m * 2 ^ (s + 1)) with hl | hl
        · omega
        · have hone := Nat.or_mod_two_eq_one.mp hl
          omega
      · have hone := (@Nat.or_mod_two_eq_one a (m * 2 ^ (s + 1))).mpr (Or.inl ha)
        omega
    have hL := Nat.div_add_mod (a ||| m * 2 ^ (s + 1)) 2
    have hA := Nat.div_add_mod a 2
    omega

theorem varintBytes_length_le : ∀ fuel v, (varintBytes fuel v).length ≤ fuel := by
  intro fuel
  induction fuel with
  | zero => intro v; simp [varintBytes]
  | succ f ih =>
    intro v
    by_cases hv : v < 128
    · simp [varintBytes, hv]
    · simp only [varintBytes, hv, if_false, List.length_cons]
      exact Nat.succ_le_succ (ih (v / 128))

theorem varintBytes_ne_nil (fuel v : Nat) : varintBytes (fuel + 1) v ≠ [] := by
  unfold varintBytes
  split <;> simp

theorem varintShape_cons (b : Nat) (bs : List Nat) (hbs : bs ≠ []) :
    varintShape (b :: bs) = (decide (128 ≤ b ∧ b < 256) && varintShape bs) := by
  cases bs with
  | nil => exact absurd rfl hbs
  | cons c cs => rfl

theorem varintBytes_shape : ∀ fuel v, v < 128 ^ (fuel + 1) →
    varintShape (varintBytes (fuel + 1) v) = true := by
  intro fuel
  induction fuel with
  | zero =>
    intro v hv
    have h1 : v < 128 := by simpa using hv
    simp [varintBytes, h1, varintShape]
  | succ f ih =>
    intro v hv
    by_cases hsmall : v < 128
    · simp [varintBytes, hsmall, varintShape]
    · have hbytes : varintBytes (f + 1 + 1) v
          = (v % 128 + 128) :: varintBytes (f + 1) (v / 128) := by
        simp [varintBytes, hsmall]
      rw [hbytes, varintShape_cons _ _ (varintBytes_ne_nil _ _)]
      have hdiv : v / 128 < 128 ^ (f + 1) := by
        have h128 : (128 : Nat) ^ (f + 1 + 1) = 128 ^ (f + 1) * 128 := by ring
        omega
      rw [ih (v / 128) hdiv]
      simp only [Bool.and_true, decide_eq_true_eq]
      omega

theorem varintBytes_groups : ∀ fuel v, v < 128 ^ fuel →
    groupsVal (varintBytes fuel v) = v := by
  intro fuel
  induction fuel with
  | zero =>
    intro v hv
    have h0 : v = 0 := by simpa using hv
    simp [h0, varintBytes, groupsVal]
  | succ f ih =>
    intro v hv
    by_cases hsmall : v < 128
    · rw [show varintBytes (f + 1) v = [v] from by simp [varintBytes, hsmall]]
      simp only [groupsVal]
      omega
    · have hbytes : varintBytes (f + 1) v
          = (v % 128 + 128) :: varintBytes f (v / 128) := by
        simp [varintBytes, hsmall]
      rw [hbytes]
      simp only [groupsVal]
      have hdiv : v / 128 < 128 ^ f := by
        have h128 : (128 : Nat) ^ (f + 1) = 128 ^ f * 128 := by ring
        omega
      rw [ih (v / 128) hdiv]
      omega

theorem rdAux_encoding (buf : List Nat) :
    ∀ (fuel v pos shift acc : Nat),
      buf.drop pos = varintBytes fuel v →
      v < 128 ^ fuel →
      acc < 2 ^ shift →
      v * 2 ^ shift < two64 →
      fuel ≠ 0 →
      rdAux buf fuel pos shift acc
        = (acc + v * 2 ^ shift, pos + (varintBytes fuel v).length) := by
  intro fuel
  induction fuel with
  | zero =>
    intro v pos shift acc _ _ _ _ h5
    exact absurd rfl h5
  | succ f ih =>
    intro v pos shift acc hdrop hv hacc hlt _
    by_cases hsmall : v < 128
    · have hbytes : varintBytes (f + 1) v = [v] := by simp [varintBytes, hsmall]
      rw [hbytes] at hdrop ⊢
      have hget : buf.getD pos 0 = v := by
        have h0 : (buf.drop pos)[0]? = buf[pos + 0]? := List.getElem?_drop buf pos 0
        rw [hdrop] at h0
        simp only [List.getElem?_cons_zero, Nat.add_zero] at h0
        simp [List.getD, ← h0]
      have hmul : (v % 128) * 2 ^ shift % two64 = v * 2 ^ shift := by
        rw [Nat.mod_eq_of_lt hsmall]
        exact Nat.mod_eq_of_lt hlt
      have hacc2 : acc ||| v * 2 ^ shift = acc + v * 2 ^ shift :=
        lor_mul_two_pow shift acc v hacc
      simp only [rdAux, hget, hmul, hacc2, List.length_cons, List.length_nil]
      split
      · rfl
      · split
        · rfl
        · rename_i hcond
          exact absurd (Or.inl hsmall) hcond
    · have hbytes : varintBytes (f + 1) v
          = (v % 128 + 128) :: varintBytes f (v / 128) := by
        simp [varintBytes, hsmall]
      have hf : f ≠ 0 := by
        rcases Nat.eq_zero_or_pos f with h0 | _
        · subst h0
          simp at hv
          omega
        · omega
      have hget : buf.getD pos 0 = v % 128 + 128 := by
        have h0 : (buf.drop pos)[0]? = buf[pos + 0]? := List.getElem?_drop buf pos 0
        rw [hdrop, hbytes] at h0
        simp only [List.getElem?_cons_zero, Nat.add_zero] at h0
        simp [List.getD, ← h0]
      have htail : buf.drop (pos + 1) = varintBytes f (v / 128) := by
        have h1 := List.drop_drop 1 pos buf
        rw [hdrop, hbytes] at h1
        simpa [Nat.add_comm] using h1.symm
      have hlen : pos + 1 < buf.length := by
        have hld : (buf.drop pos).length = buf.length - pos := List.length_drop pos buf
        rw [hdrop, hbytes] at hld
        have hne : varintBytes f (v / 128) ≠ [] := by
          cases f with
          | zero => exact absurd rfl hf
          | succ f2 => exact varintBytes_ne_nil f2 (v / 128)
        have hpos2 : 0 < (varintBytes f (v / 128)).length := List.length_pos.mpr hne
        simp only [List.length_cons] at hld
        omega
      have hmulle : (v % 128) * 2 ^ shift ≤ v * 2 ^ shift :=
        Nat.mul_le_mul_right _ (Nat.mod_le v 128)
      have hmul : (v % 128) * 2 ^ shift % two64 = (v % 128) * 2 ^ shift :=
        Nat.mod_eq_of_lt (Nat.lt_of_le_of_lt hmulle hlt)
      have hacc2 : acc ||| (v % 128) * 2 ^ shift = acc + (v % 128) * 2 ^ shift :=
        lor_mul_two_pow shift acc (v % 128) hacc
      have hpow : (2 : Nat) ^ (shift + 7) = 128 * 2 ^ shift := by ring
      have hb128 : (v % 128 + 128) % 128 = v % 128 := by omega
      have hstep : rdAux buf (f + 1) pos shift acc
          = rdAux buf f (pos + 1) (shift + 7) (acc + (v % 128) * 2 ^ shift) := by
        simp only [rdAux, hget, hb128, hmul, hacc2]
        split
        · rename_i h0; exact absurd h0 hf
        · split
          · rename_i hcond
            rcases hcond with hc | hc
            · omega
            · omega
          · rfl
      rw [hstep]
      have hdivlt : v / 128 < 128 ^ f := by
        have h128 : (128 : Nat) ^ (f + 1) = 128 ^ f * 128 := by ring
        omega
      have hacc3 : acc + (v % 128) * 2 ^ shift < 2 ^ (shift + 7) := by
        have hm : (v % 128) * 2 ^ shift ≤ 127 * 2 ^ shift :=
          Nat.mul_le_mul_right _ (by omega)
        have hzp : 0 < (2 : Nat) ^ shift := Nat.pos_pow_of_pos shift (by omega)
        omega
      have hlt2 : (v / 128) * 2 ^ (shift + 7) < two64 := by
        have hle : (v / 128) * 2 ^ (shift + 7) ≤ v * 2 ^ shift := by
          rw [hpow, ← Nat.mul_assoc]
          exact Nat.mul_le_mul_right _ (by omega)
        exact Nat.lt_of_le_of_lt hle hlt
      rw [ih (v / 128) (pos + 1) (shift + 7) (acc + (v % 128) * 2 ^ shift)
        htail hdivlt hacc3 hlt2 hf]
      have hval : (v % 128) * 2 ^ shift + (v / 128) * 2 ^ (shift + 7)
          = v * 2 ^ shift := by
        rw [hpow, ← Nat.mul_assoc]
        rw [← Nat.add_mul]
        congr 1
        omega
      rw [hbytes]
      simp only [List.length_cons, Prod.mk.injEq]
      exact ⟨by omega, by omega⟩

theorem nodesOf_length : ∀ (es : List Expr) (pos : Nat),
    (nodesOf pos es).length = es.length := by
  intro es
  induction es with
  | nil => intro pos; rfl
  | cons e es ih => intro pos; simp [nodesOf, ih]

mutual

theorem populated_nodeOf (e : Expr) (hg : goodE e = true) :
    ∀ pos, populatedN (nodeOf pos e) = true := by
  match e with
  | .leaf ty =>
    intro pos
    simp [nodeOf, populatedN, populatedL]
  | .fn args =>
    intro pos
    have hgl : goodL args = true := by
      simp only [goodE, Bool.and_eq_true] at hg
      exact hg.2.2
    simp only [nodeOf, populatedN, Bool.and_eq_true, decide_eq_true_eq]
    exact ⟨nodesOf_length args (pos + 2), populated_nodesOf args hgl (pos + 2)⟩
  | .assoc args =>
    intro pos
    have hgl : goodL args = true := by
      simp only [goodE, Bool.and_eq_true] at hg
      exact hg.2.2
    simp only [nodeOf, populatedN, Bool.and_eq_true, decide_eq_true_eq]
    exact ⟨nodesOf_length args (pos + 1), populated_nodesOf args hgl (pos + 1)⟩
  | .rul d a b =>
    intro pos
    have hga : goodE a = true := by
      simp only [goodE, Bool.and_eq_true] at hg
      exact hg.1
    have hgb : goodE b = true := by
      simp only [goodE, Bool.and_eq_true] at hg
      exact hg.2
    simp only [nodeOf, populatedN, populatedL, Bool.and_eq_true, decide_eq_true_eq]
    exact ⟨rfl, populated_nodeOf a hga (pos + 1),
      populated_nodeOf b hgb (pos + 1 + (toksE a).length), trivial⟩

theorem populated_nodesOf (es : List Expr) (hg : goodL es = true) :
    ∀ pos, populatedL (nodesOf pos es) = true := by
  match es with
  | [] => intro pos; rfl
  | e :: es2 =>
    intro pos
    have hge : goodE e = true := by
      simp only [goodL, Bool.and_eq_true] at hg
      exact hg.1
    have hges : goodL es2 = true := by
      simp only [goodL, Bool.and_eq_true] at hg
      exact hg.2
    simp only [nodesOf, populatedL, Bool.and_eq_true]
    exact ⟨populated_nodeOf e hge pos,
      populated_nodesOf es2 hges (pos + (toksE e).length)⟩

end

theorem runB_step (t : PTok) (ts : List PTok) (fi fsz fty : Nat)
    (fdone : List Node) (fs : List Frame) (pos : Nat) :
    runB (t :: ts) (Frame.mk fi fsz fty fdone :: fs) pos =
      (if ptokType t = 102 then
        if fsz ≤ fdone.length then .error .oobSlot
        else if MAX_ALLOC < ptokLength t then .error .badAlloc
        else
          match ts with
          | [] => .ok ⟨defaultNode, true⟩
          | _ :: ts2 =>
            runB ts2 (Frame.mk (pos + 1) (ptokLength t) 102 []
              :: Frame.mk fi fsz fty fdone :: fs) (pos + 2)
      else if ptokType t = 65 then
        if fsz ≤ fdone.length then .error .oobSlot
        else if MAX_ALLOC < ptokLength t then .error .badAlloc
        else runB ts (Frame.mk pos (ptokLength t) 65 []
          :: Frame.mk fi fsz fty fdone :: fs) (pos + 1)
      else if ptokType t = 58 ∨ ptokType t = 45 then
        if fsz ≤ fdone.length then .error .oobSlot
        else if MAX_ALLOC < 2 then .error .badAlloc
        else runB ts (Frame.mk pos 2 (ptokType t) []
          :: Frame.mk fi fsz fty fdone :: fs) (pos + 1)
      else
        if fsz ≤ fdone.length then .error .oobSlot
        else if MAX_ALLOC < 0 then .error .badAlloc
        else
          match closeUp (Node.mk pos 0 (ptokType t) [])
              (Frame.mk fi fsz fty fdone :: fs) with
          | .inl root => if ts.isEmpty then .ok ⟨root, false⟩
              else .error .oobStack
          | .inr st2 => runB ts st2 (pos + 1)) := by
  rw [runB.eq_def]

theorem closeUp_cons (node : Node) (fi fsz fty : Nat) (fdone : List Node)
    (fs : List Frame) :
    closeUp node (Frame.mk fi fsz fty fdone :: fs) =
      if fsz ≤ (fdone ++ [node]).length
      then closeUp (Node.mk fi fsz fty (fdone ++ [node])) fs
      else Sum.inr (Frame.mk fi fsz fty (fdone ++ [node]) :: fs) := by
  rw [closeUp.eq_def]

theorem contAfter_inr (ts : List PTok) (pos2 : Nat) (st2 : List Frame) :
    contAfter ts pos2 (Sum.inr st2) = runB ts st2 pos2 := rfl

theorem runB_nil_frame (f : Frame) (fs : List Frame) (pos : Nat) :
    runB [] (f :: fs) pos = .ok ⟨defaultNode, true⟩ := by
  rw [runB.eq_def]

theorem closeUp_nil (node : Node) : closeUp node [] = Sum.inl node := by
  rw [closeUp.eq_def]

mutual

theorem runB_toksE (e : Expr) (hg : goodE e = true) :
    ∀ (ts : List PTok) (fi fsz fty : Nat) (fdone : List Node)
      (fs : List Frame) (pos : Nat),
      fdone.length < fsz →
      runB (toksE e ++ ts) (Frame.mk fi fsz fty fdone :: fs) pos
        = contAfter ts (pos + (toksE e).length)
            (closeUp (nodeOf pos e) (Frame.mk fi fsz fty fdone :: fs)) := by
  match e with
  | .leaf ty =>
    intro ts fi fsz fty fdone fs pos hroom
    have hne : ¬(ty = 102 ∨ ty = 65 ∨ ty = 58 ∨ ty = 45) := by
      simpa [goodE] using hg
    push_neg at hne
    obtain ⟨h1, h2, h3, h4⟩ := hne
    simp only [toksE, List.cons_append, List.nil_append, List.length_cons,
      List.length_nil, Nat.zero_add]
    rw [runB_step]
    simp only [ptokType]
    rw [if_neg h1, if_neg h2, if_neg (by tauto : ¬(ty = 58 ∨ ty = 45)),
      if_neg (by omega : ¬(fsz ≤ fdone.length)),
      if_neg (by omega : ¬(MAX_ALLOC < 0))]
    simp only [nodeOf]
    cases hcu : closeUp (Node.mk pos 0 ty [])
        (Frame.mk fi fsz fty fdone :: fs) with
    | inl root => simp [contAfter]
    | inr st2 => simp [contAfter]
  | .fn args =>
    intro ts fi fsz fty fdone fs pos hroom
    have hgl : goodL args = true := by
      simp only [goodE, Bool.and_eq_true] at hg
      exact hg.2.2
    have hbnd : args.length ≤ MAX_ALLOC := by
      simp only [goodE, Bool.and_eq_true, decide_eq_true_eq] at hg
      exact hg.2.1
    have hnil : args ≠ [] := by
      intro hc
      subst hc
      simp [goodE] at hg
    simp only [toksE, List.cons_append]
    rw [runB_step]
    show (if fsz ≤ fdone.length then (Except.error BErr.oobSlot : Except BErr TreeOut)
        else if MAX_ALLOC < args.length then Except.error BErr.badAlloc
        else runB (toksL args ++ ts)
          (Frame.mk (pos + 1) args.length 102 []
            :: Frame.mk fi fsz fty fdone :: fs) (pos + 2)) = _
    rw [if_neg (by omega : ¬(fsz ≤ fdone.length)),
      if_neg (by omega : ¬(MAX_ALLOC < args.length))]
    rw [runB_toksL args hnil hgl ts (pos + 1) args.length 102 []
      (Frame.mk fi fsz fty fdone :: fs) (pos + 2) (by simp)]
    rw [if_neg (by simp)]
    have hlen : pos + 2 + (toksL args).length
        = pos + (toksE (Expr.fn args)).length := by
      simp [toksE]
      omega
    rw [hlen]
    simp only [nodeOf, List.nil_append, toksE]
  | .assoc args =>
    intro ts fi fsz fty fdone fs pos hroom
    have hgl : goodL args = true := by
      simp only [goodE, Bool.and_eq_true] at hg
      exact hg.2.2
    have hbnd : args.length ≤ MAX_ALLOC := by
      simp only [goodE, Bool.and_eq_true, decide_eq_true_eq] at hg
      exact hg.2.1
    have hnil : args ≠ [] := by
      intro hc
      subst hc
      simp [goodE] at hg
    simp only [toksE, List.cons_append]
    rw [runB_step]
    show (if fsz ≤ fdone.length then (Except.error BErr.oobSlot : Except BErr TreeOut)
        else if MAX_ALLOC < args.length then Except.error BErr.badAlloc
        else runB (toksL args ++ ts)
          (Frame.mk pos args.length 65 []
            :: Frame.mk fi fsz fty fdone :: fs) (pos + 1)) = _
    rw [if_neg (by omega : ¬(fsz ≤ fdone.length)),
      if_neg (by omega : ¬(MAX_ALLOC < args.length))]
    rw [runB_toksL args hnil hgl ts pos args.length 65 []
      (Frame.mk fi fsz fty fdone :: fs) (pos + 1) (by simp)]
    rw [if_neg (by simp)]
    have hlen : pos + 1 + (toksL args).length
        = pos + (toksE (Expr.assoc args)).length := by
      simp [toksE]
      omega
    rw [hlen]
    simp only [nodeOf, List.nil_append, toksE]
  | .rul d a b =>
    intro ts fi fsz fty fdone fs pos hroom
    have hga : goodE a = true := by
      simp only [goodE, Bool.and_eq_true] at hg
      exact hg.1
    have hgb : goodE b = true := by
      simp only [goodE, Bool.and_eq_true] at hg
      exact hg.2
    have hty : (if d then (58 : Nat) else 45) ≠ 102 := by cases d <;> decide
    have hty2 : (if d then (58 : Nat) else 45) ≠ 65 := by cases d <;> decide
    have hty3 : ((if d then (58 : Nat) else 45) = 58 ∨
        (if d then (58 : Nat) else 45) = 45) := by cases d <;> simp
    simp only [toksE, List.cons_append, List.append_assoc]
    rw [runB_step]
    simp only [ptokType]
    rw [if_neg hty, if_neg hty2, if_pos hty3,
      if_neg (by omega : ¬(fsz ≤ fdone.length)),
      if_neg (by decide : ¬(MAX_ALLOC < 2))]
    rw [runB_toksE a hga (toksE b ++ ts) pos 2 (if d then 58 else 45) []
      (Frame.mk fi fsz fty fdone :: fs) (pos + 1) (by simp)]
    rw [closeUp_cons]
    rw [if_neg (by simp)]
    rw [contAfter_inr]
    simp only [List.nil_append]
    rw [runB_toksE b hgb ts pos 2 (if d then 58 else 45) [nodeOf (pos + 1) a]
      (Frame.mk fi fsz fty fdone :: fs) (pos + 1 + (toksE a).length)
      (by simp)]
    rw [closeUp_cons]
    rw [if_pos (by simp)]
    simp only [List.singleton_append]
    have hlen : pos + 1 + (toksE a).length + (toksE b).length
        = pos + (toksE (Expr.rul d a b)).length := by
      simp [toksE]
      omega
    rw [hlen]
    simp only [nodeOf, toksE]

theorem runB_toksL (es : List Expr) (hne : es ≠ []) (hg : goodL es = true) :
    ∀ (ts : List PTok) (gi gsz gty : Nat) (gdone : List Node)
      (gs : List Frame) (pos : Nat),
      gdone.length + es.length ≤ gsz →
      runB (toksL es ++ ts) (Frame.mk gi gsz gty gdone :: gs) pos
        = if gdone.length + es.length < gsz
          then runB ts
            (Frame.mk gi gsz gty (gdone ++ nodesOf pos es) :: gs)
            (pos + (toksL es).length)
          else contAfter ts (pos + (toksL es).length)
            (closeUp (Node.mk gi gsz gty (gdone ++ nodesOf pos es)) gs) := by
  match es with
  | [] => exact absurd rfl hne
  | [e] =>
    intro ts gi gsz gty gdone gs pos hroom
    simp only [List.length_singleton] at hroom
    have hge : goodE e = true := by
      simp only [goodL, Bool.and_eq_true] at hg
      exact hg.1
    simp only [toksL, List.append_nil, List.length_singleton]
    rw [runB_toksE e hge ts gi gsz gty gdone gs pos (by omega)]
    rw [closeUp_cons]
    simp only [nodesOf, nodeOf, List.length_append, List.length_singleton]
    rcases Nat.lt_or_ge (gdone.length + 1) gsz with hlt | hge2
    · rw [if_neg (by omega), if_pos (by omega)]
      rw [contAfter_inr]
    · rw [if_pos (by omega), if_neg (by omega)]
  | e :: e2 :: es2 =>
    intro ts gi gsz gty gdone gs pos hroom
    simp only [List.length_cons] at hroom
    have hge : goodE e = true := by
      simp only [goodL, Bool.and_eq_true] at hg
      exact hg.1
    have hges : goodL (e2 :: es2) = true := by
      simp only [goodL, Bool.and_eq_true] at hg
      simp only [goodL, Bool.and_eq_true]
      exact ⟨hg.2.1, hg.2.2⟩
    show runB ((toksE e ++ toksL (e2 :: es2)) ++ ts) _ _ = _
    rw [List.append_assoc]
    rw [runB_toksE e hge (toksL (e2 :: es2) ++ ts) gi gsz gty gdone gs pos
      (by omega)]
    rw [closeUp_cons]
    rw [if_neg (by simp; omega)]
    rw [contAfter_inr]
    rw [runB_toksL (e2 :: es2) (by simp) hges ts gi gsz gty
      (gdone ++ [nodeOf pos e]) gs (pos + (toksE e).length)
      (by simp; omega)]
    have hnodes : (gdone ++ [nodeOf pos e])
        ++ nodesOf (pos + (toksE e).length) (e2 :: es2)
        = gdone ++ nodesOf pos (e :: e2 :: es2) := by
      simp only [nodesOf, List.append_assoc, List.singleton_append]
    have hlens : pos + (toksE e).length + (toksL (e2 :: es2)).length
        = pos + (toksL (e :: e2 :: es2)).length := by
      simp only [toksL, List.length_append]
      omega
    rcases Nat.lt_or_ge (gdone.length + (es2.length + 1 + 1)) gsz with hlt | hge3
    · rw [if_pos (by simp; omega), if_pos (by simp; omega)]
      rw [hnodes, hlens]
    · rw [if_neg (by simp; omega), if_neg (by simp; omega)]
      rw [hnodes, hlens]

end

/-! ### Claim theorems -/

/-- C1.  The claim states that an unrecognized tag byte aborts the pass at
that byte and leaves `parser.err` nonzero.  On the buffer
`38 3A FF 43 05 00` (header, unknown tag 0xFF, then an int8 token) the
scan instead continues past the bad byte — it still emits the int8 token
at offset 4 — and `parse` returns with `err = 0`, because the loop's
`break` only leaves the switch and the trailing `err = 0;`
(wxf_parser.h:701) overwrites the `err = 2` the default arm set.  The
spec's "no error is silently swallowed" marks this as a code bug. -/
theorem unknown_tag_error_swallowed :
    parse [56, 58, 255, 67, 5, 0] = some ⟨0, [PTok.scalar 67 1 4]⟩ := by
  decide

/-- C2.  The claim states every multi-byte read is bounds-checked and no
emitted token views bytes past the buffer end.  On the 4-byte buffer
`38 3A 4C 00` (header, int64 tag, a single payload byte) the scalar case
of `Parser::parse` performs no bounds check: it emits an i64 token whose
view starts at offset 3 with length 8 — extending 7 bytes past the end —
and returns with `err = 0`; no `Truncated` error exists in the code. -/
theorem truncated_read_unchecked :
    parse [56, 58, 76, 0] = some ⟨0, [PTok.scalar 76 8 3]⟩ ∧
    (List.length [56, 58, 76, 0]
      < ptokOff (PTok.scalar 76 8 3) + ptokLength (PTok.scalar 76 8 3)) := by
  decide

/-- C3 counterexample.  The claim states that when the frame stack is
non-empty at token exhaustion the result is a decode error
(`ArityMismatch`).  On the token list of a function declaring 1 child
followed by only its head symbol (the last child token removed),
`MakeExprTree` instead returns the tree — `Except.ok`, with the root
cleared to the default node and only the stderr diagnostic flag set;
no error value of any kind is produced. -/
theorem tree_builder_no_arity_error :
    MakeExprTree 0 [PTok.scalar 102 1 0, PTok.scalar 115 1 0]
      = .ok ⟨defaultNode, true⟩ := by
  show runB [] [Frame.mk 1 1 102 []] 2 = _
  exact runB_nil_frame _ _ _

/-- C3 as amended.  For a function token declaring `n ≥ 1` children
followed by exactly `n` well-formed sub-expressions (any shape and
depth, provided every composite inside declares between 1 and
`MAX_ALLOC` children, and `n ≤ MAX_ALLOC` itself), the tree builder
produces a root with exactly `n` fully populated children, the frame
stack emptying exactly at the last token (no diagnostic).  When the
stack is non-empty at token exhaustion (here: the child tokens missing
entirely, any declared arity `n ≤ MAX_ALLOC`), the builder returns the
tree with the root cleared and the diagnostic flag — not a decode error
value.  A declared arity above `MAX_ALLOC` never reaches either path:
the root `ExprNode` constructor throws `std::bad_alloc`. -/
theorem tree_builder_arity (args : List Expr) (h1 : args ≠ [])
    (h2 : goodL args = true) (h3 : args.length ≤ MAX_ALLOC) :
    MakeExprTree 0 (toksE (Expr.fn args))
      = .ok ⟨Node.mk 1 args.length 102 (nodesOf 2 args), false⟩ ∧
    (nodesOf 2 args).length = args.length ∧
    populatedL (nodesOf 2 args) = true ∧
    (∀ n : Nat, n ≤ MAX_ALLOC →
      MakeExprTree 0 [PTok.scalar 102 n 0, PTok.scalar 115 1 0]
        = .ok ⟨defaultNode, true⟩) ∧
    (∀ n : Nat, MAX_ALLOC < n →
      MakeExprTree 0 [PTok.scalar 102 n 0, PTok.scalar 115 1 0]
        = .error .badAlloc) := by
  refine ⟨?_, nodesOf_length args 2, populated_nodesOf args h2 2, ?_, ?_⟩
  · rw [show (toksE (Expr.fn args))
        = (PTok.scalar 102 args.length 0 :: PTok.scalar 115 1 0 :: toksL args)
        from by simp [toksE]]
    show (if MAX_ALLOC < args.length then (Except.error BErr.badAlloc : Except BErr TreeOut)
        else runB (toksL args) [Frame.mk 1 args.length 102 []] 2) = _
    rw [if_neg (by omega : ¬(MAX_ALLOC < args.length))]
    rw [show (toksL args) = (toksL args ++ []) from by simp]
    rw [runB_toksL args h1 h2 [] 1 args.length 102 [] [] 2 (by simp)]
    rw [if_neg (by simp)]
    simp only [List.nil_append]
    rw [closeUp_nil]
    simp [contAfter]
  · intro n hn
    show (if MAX_ALLOC < n then (Except.error BErr.badAlloc : Except BErr TreeOut)
        else runB [] [Frame.mk 1 n 102 []] 2) = _
    rw [if_neg (by omega : ¬(MAX_ALLOC < n))]
    exact runB_nil_frame _ _ _
  · intro n hn
    show (if MAX_ALLOC < n then (Except.error BErr.badAlloc : Except BErr TreeOut)
        else runB [] [Frame.mk 1 n 102 []] 2) = _
    rw [if_pos hn]

/-- C3 witness: `tree_builder_arity` applied to a one-argument function
`f(x)` (head symbol, one int8 leaf), to the truncated arity-5 function
with no children, and to a function token declaring 2^63 children,
which trips the `MAX_ALLOC` allocation guard. -/
theorem tree_builder_arity_witness :
    MakeExprTree 0 (toksE (Expr.fn [Expr.leaf 67]))
      = .ok ⟨Node.mk 1 1 102 [Node.mk 2 0 67 []], false⟩ ∧
    MakeExprTree 0 [PTok.scalar 102 5 0, PTok.scalar 115 1 0]
      = .ok ⟨defaultNode, true⟩ ∧
    MakeExprTree 0 [PTok.scalar 102 9223372036854775808 0, PTok.scalar 115 1 0]
      = .error .badAlloc := by
  have h := tree_builder_arity [Expr.leaf 67] (by simp) (by simp [goodL, goodE])
    (by simp [MAX_ALLOC])
  refine ⟨?_, h.2.2.2.1 5 (by decide), h.2.2.2.2 9223372036854775808 (by decide)⟩
  rw [h.1]
  simp [nodesOf, nodeOf]

/-- C4.  `push_integer` emits the tag of the narrowest signed width among
8/16/32/64 bits that represents the value exactly (the selected width is
`8 * 2 ^ minimal_signed_bits v`), followed by the value in that fixed
width, little-endian two's complement. -/
theorem push_integer_minimal (v : Int) (h1 : -(2 ^ 63) ≤ v) (h2 : v < 2 ^ 63) :
    fitsWidth (8 * 2 ^ minimal_signed_bits v) v ∧
    (∀ w, (w = 8 ∨ w = 16 ∨ w = 32 ∨ w = 64) → fitsWidth w v →
      8 * 2 ^ minimal_signed_bits v ≤ w) ∧
    (∀ buffer, push_integer buffer v =
      buffer ++ tag_of_width (8 * 2 ^ minimal_signed_bits v) ::
        intLEBytes (2 ^ minimal_signed_bits v) v) := by
  have e63 : (2 : Int) ^ 63 = 9223372036854775808 := by norm_num
  rw [e63] at h1 h2
  by_cases c0 : -128 ≤ v ∧ v ≤ 127
  · have hb : minimal_signed_bits v = 0 := by simp [minimal_signed_bits, c0]
    refine ⟨?_, ?_, ?_⟩
    · simp only [hb, fitsWidth]; norm_num; omega
    · intro w hw hf; simp only [hb]; norm_num; rcases hw with h | h | h | h <;> omega
    · intro buffer; simp [push_integer, hb, tag_of_width]
  · by_cases c1 : -32768 ≤ v ∧ v ≤ 32767
    · have hb : minimal_signed_bits v = 1 := by simp [minimal_signed_bits, c0, c1]
      refine ⟨?_, ?_, ?_⟩
      · simp only [hb, fitsWidth]; norm_num; omega
      · intro w hw hf; simp only [hb]
        rcases hw with h | h | h | h <;>
          (subst h; simp only [fitsWidth] at hf; norm_num at hf ⊢; try omega)
      · intro buffer; simp [push_integer, hb, tag_of_width]
    · by_cases c2 : -2147483648 ≤ v ∧ v ≤ 2147483647
      · have hb : minimal_signed_bits v = 2 := by
          simp [minimal_signed_bits, c0, c1, c2]
        refine ⟨?_, ?_, ?_⟩
        · simp only [hb, fitsWidth]; norm_num; omega
        · intro w hw hf; simp only [hb]
          rcases hw with h | h | h | h <;> subst h <;>
            simp only [fitsWidth] at hf <;> norm_num at hf ⊢ <;> omega
        · intro buffer; simp [push_integer, hb, tag_of_width]
      · have hb : minimal_signed_bits v = 3 := by
          simp [minimal_signed_bits, c0, c1, c2]
        refine ⟨?_, ?_, ?_⟩
        · simp only [hb, fitsWidth]; norm_num; omega
        · intro w hw hf; simp only [hb]
          rcases hw with h | h | h | h <;> subst h <;>
            simp only [fitsWidth] at hf <;> norm_num at hf ⊢ <;> omega
        · intro buffer; simp [push_integer, hb, tag_of_width]

/-- C4 witness: the three concrete examples of the claim, obtained by
applying `push_integer_minimal` at 127, 128 and 2147483648. -/
theorem push_integer_minimal_witness :
    push_integer [] 127 = [67, 127] ∧
    push_integer [] 128 = [106, 128, 0] ∧
    push_integer [] 2147483648 = [76, 0, 0, 0, 128, 0, 0, 0, 0] := by
  refine ⟨?_, ?_, ?_⟩
  · have h := (push_integer_minimal 127 (by norm_num) (by norm_num)).2.2 []
    rw [h]; decide
  · have h := (push_integer_minimal 128 (by norm_num) (by norm_num)).2.2 []
    rw [h]; decide
  · have h := (push_integer_minimal 2147483648 (by norm_num) (by norm_num)).2.2 []
    rw [h]; decide

/-- C5 counterexample.  The claim states `push_array` succeeds iff the
mathematical product of the dimensions equals the element count.  With
dimensions `[2^32, 2^32]` and an empty element list the `size_t` product
wraps to 0, which equals the element count, so the call succeeds (no
rollback) even though the true product `2^64` differs from 0. -/
theorem push_array_overflow_accepts :
    (push_array [] [4294967296, 4294967296] [] 193 0).2 = true ∧
    ([4294967296, 4294967296] : List Nat).prod
      ≠ ([] : List (List Nat)).length := by
  constructor
  · decide
  · decide

/-- C5 as amended: `push_array` succeeds iff the dimension product
computed in wrapping `size_t` arithmetic (mod 2^64) equals the element
count of `data`; on mismatch the call reports failure (the diagnostic
path) and the sink is left byte-identical to its pre-call state. -/
theorem push_array_shape (buffer dims : List Nat) (data : List (List Nat))
    (ty nt : Nat) :
    ((push_array buffer dims data ty nt).2 = true ↔
      wrappedProd dims = data.length) ∧
    ((push_array buffer dims data ty nt).2 = false →
      (push_array buffer dims data ty nt).1 = buffer) := by
  unfold push_array
  by_cases hc : (push_array_info buffer dims ty nt).2 = data.length
  · rw [push_array_info_snd] at hc
    simp only [push_array_info_snd, hc]
    simp
  · rw [push_array_info_snd] at hc
    simp only [push_array_info_snd, hc]
    simp only [ne_eq, hc, not_false_iff, if_pos, if_true]
    constructor
    · simp [hc]
    · intro _
      rw [push_array_info_fst, List.take_left]

/-- C5 witness: applying `push_array_shape` with dimensions `[1]` and no
elements: the product 1 differs from the count 0, the push fails and the
sink `[9]` is returned unchanged. -/
theorem push_array_shape_witness :
    (push_array [9] [1] ([] : List (List Nat)) 193 0).2 = false ∧
    (push_array [9] [1] ([] : List (List Nat)) 193 0).1 = [9] := by
  have h := push_array_shape [9] [1] ([] : List (List Nat)) 193 0
  have hne : ¬ wrappedProd [1] = ([] : List (List Nat)).length := by decide
  have hfalse : (push_array [9] [1] ([] : List (List Nat)) 193 0).2 = false := by
    rcases Bool.eq_false_or_eq_true (push_array [9] [1] ([] : List (List Nat)) 193 0).2
      with hb | hb
    · exact absurd (h.1.mp hb) hne
    · exact hb
  exact ⟨hfalse, h.2 hfalse⟩

/-- C6.  For every `uint64_t` value, `serialize_varint`'s byte group loop
emits at most 10 bytes, each a 7-bit little-endian group (the groups
reassemble to the value) with the high bit set on every byte except the
last, and `Parser::read_varint` applied to exactly that encoding returns
the original value, having consumed the whole encoding. -/
theorem varint_roundtrip (v : Nat) (h : v < two64) :
    (varintBytes 10 v).length ≤ 10 ∧
    varintShape (varintBytes 10 v) = true ∧
    groupsVal (varintBytes 10 v) = v ∧
    read_varint (varintBytes 10 v) 0 = (v, (varintBytes 10 v).length) := by
  have h128 : v < 128 ^ 10 := by
    have hle : two64 ≤ 128 ^ 10 := by norm_num [two64]
    omega
  refine ⟨varintBytes_length_le 10 v, varintBytes_shape 9 v h128,
    varintBytes_groups 10 v h128, ?_⟩
  have hne : varintBytes 10 v ≠ [] := varintBytes_ne_nil 9 v
  have hpos : 0 < (varintBytes 10 v).length := List.length_pos.mpr hne
  unfold read_varint
  rw [if_neg (by omega)]
  have hrd := rdAux_encoding (varintBytes 10 v) 10 v 0 0 0
    (by simp) h128 (by norm_num) (by simpa using h) (by norm_num)
  simpa using hrd

/-- C6 witness: `varint_roundtrip` applied at 300, whose encoding is the
two bytes `[172, 2]`. -/
theorem varint_roundtrip_witness :
    (varintBytes 10 300).length ≤ 10 ∧
    varintShape (varintBytes 10 300) = true ∧
    groupsVal (varintBytes 10 300) = 300 ∧
    read_varint (varintBytes 10 300) 0 = (300, (varintBytes 10 300).length) :=
  varint_roundtrip 300 (by norm_num [two64])

/-- C7.  A buffer whose first two bytes are not `0x38 0x3A` (56 58) —
including any buffer shorter than two bytes — is rejected by the header
check with `err = 1` (`BadHeader`) before the token loop starts, so no
tokens are emitted, regardless of the remaining content. -/
theorem bad_header_rejected (buf : List Nat)
    (h : buf.length < 2 ∨ buf.getD 0 0 ≠ 56 ∨ buf.getD 1 0 ≠ 58) :
    parse buf = some ⟨1, []⟩ := by
  unfold parse
  rw [if_pos h]

/-- C7 witness: `bad_header_rejected` applied to the two-byte buffer
`[0, 1]`. -/
theorem bad_header_rejected_witness : parse [0, 1] = some ⟨1, []⟩ :=
  bad_header_rejected [0, 1] (by decide)

/-- C8.  The claim states the dimension product is guarded against
overflow.  On the buffer `38 3A C1 00 02` + varint(2^32) + varint(2^32)
(header, packed-array tag, element type 0, rank 2, two dimensions of
2^32) the multiplication `all_len *= dims[i]` wraps silently in `size_t`:
the emitted token records flattened length 0 although the true product is
2^64 ≠ 0, the cursor advances 0 bytes of element data, and `err` is 0 —
no validation or overflow guard runs. -/
theorem array_dims_product_wraps :
    parse [56, 58, 193, 0, 2, 128, 128, 128, 128, 16, 128, 128, 128, 128, 16]
      = some ⟨0, [PTok.arr 193 0 [4294967296, 4294967296] 0 15]⟩ ∧
    4294967296 * 4294967296 % two64 = 0 ∧
    (4294967296 * 4294967296 : Nat) ≠ 0 := by
  refine ⟨by decide, by decide, by decide⟩

/-- C9.  After parsing the bare-header buffer `38 3A` the parser has
`err = 0` and an empty token list, and `MakeExprTree` on that state reads
`tokens[0]` of the empty token list — an out-of-bounds access (modelled
by the explicit `oobToken` error) instead of an empty tree or an error
return. -/
theorem make_expr_tree_empty_tokens_oob :
    parse [56, 58] = some ⟨0, []⟩ ∧
    MakeExprTree 0 [] = .error .oobToken := by
  exact ⟨by decide, rfl⟩

/-- C10.  Typed extraction on a wrong-typed token returns a fixed default
and never fails: `get_integer` returns 0 unless the tag is one of the
four signed integer tags, `get_real` returns 0 (the zero bit pattern)
unless the tag is f64, and `get_string_view` returns the empty view
unless the tag is one of the five textual tags. -/
theorem typed_getters_default (buf : List Nat) (t : PTok) :
    (¬(ptokType t = 67 ∨ ptokType t = 106 ∨ ptokType t = 105 ∨
        ptokType t = 76) → get_integer buf t = 0) ∧
    (ptokType t ≠ 114 → get_real buf t = 0) ∧
    (¬(ptokType t = 115 ∨ ptokType t = 73 ∨ ptokType t = 82 ∨
        ptokType t = 83 ∨ ptokType t = 66) → get_string_view buf t = []) := by
  refine ⟨?_, ?_, ?_⟩
  · intro h
    push_neg at h
    simp [get_integer, h.1, h.2.1, h.2.2.1, h.2.2.2]
  · intro h
    simp [get_real, h]
  · intro h
    push_neg at h
    simp [get_string_view, h.1, h.2.1, h.2.2.1, h.2.2.2.1, h.2.2.2.2]

/-- C10 witness: `typed_getters_default` applied to a function token
(tag 102), which is neither integer, real, nor textual. -/
theorem typed_getters_default_witness :
    get_integer [] (PTok.scalar 102 0 0) = 0 ∧
    get_real [] (PTok.scalar 102 0 0) = 0 ∧
    get_string_view [] (PTok.scalar 102 0 0) = [] := by
  have h := typed_getters_default [] (PTok.scalar 102 0 0)
  exact ⟨h.1 (by decide), h.2.1 (by decide), h.2.2 (by decide)⟩

end WXF
